import Mathlib

/-!
Shallow embedding of the core of `src/logger.cpp` (a hierarchical logging
framework: a tree of logger nodes, weak sink subscriptions, broadcast with
lazy pruning, and per-sink filter chains), together with theorems settling
the specification claims about it.

Modelling conventions, fixed once here:

* `std::string` is modelled as `List Char` (`Str`), so that the character
  operations of `Logger::get` (`find`, `substr`, `erase`) become ordinary
  list operations.
* `std::weak_ptr<Sink>` is modelled as `Option Nat` (`WRef`): `some i` is a
  weak reference holding the control block of the managed object with
  identity `i`; `none` is the empty weak reference (the state a
  `std::weak_ptr` is left in after being moved from).  Whether the managed
  object `i` is still alive is a parameter `live : Nat → Bool`; `lock`
  models `weak_ptr::lock`, succeeding exactly on live identities.
* `std::map<string, Logger>` (the `children` member) is modelled as an
  association list `List (Str × Logger)` with lookup on the first matching
  key; `Logger::ensure_child` only ever inserts a missing key, so keys are
  unique whenever the map was built by the code, and no claim depends on
  the cross-children iteration order of `std::map`.
* Side-effecting member functions become functions from the receiver (and
  the observable world) to the new receiver plus their observable output;
  `Sink::handle` calls during broadcast are recorded as a list of
  `(sink identity, record)` delivery events.
* Undefined behavior is modelled by `Option`: an operation whose C++
  execution is undefined returns `none`.
-/

set_option autoImplicit false

namespace Peregrine

/-- Severity levels, `enum LogLevel` of the source (`ANY < DEBUG < INFO <
WARNING < ERROR < CRITICAL`). -/
inductive LogLevel where
  | ANY
  | DEBUG
  | INFO
  | WARNING
  | ERROR
  | CRITICAL
deriving DecidableEq, Repr

/-- C++ `std::string`, modelled as a list of characters. -/
abbrev Str := List Char

/-- The `Log` record of the source (`Log::Log`): source path, timestamp,
level, message.  The `double` timestamp is only constructed and carried by
the code the claims are about, never computed with, so it is modelled as an
opaque `Nat`. -/
structure Log where
  source : Str
  time : Nat
  level : LogLevel
  message : Str
deriving DecidableEq, Repr

/-- A `Filter` object: its `filter` virtual method, i.e. a predicate on
records.  (Filter identity plays no role in the claims settled here.) -/
abbrev FilterF := Log → Bool

/-- The body of `Filterer::filter`: walk the `filters` chain in order and
return `false` at the first member rejecting the record, `true` if every
member accepts (empty chain included). -/
def Filterer.filter : List FilterF → Log → Bool
  | [], _ => true
  | f :: rest, log => if f log then Filterer.filter rest log else false

/-- The body of `Filterer::clear_filters` is empty — the function mutates
nothing, so as a state transformer it is the identity on the chain. -/
def Filterer.clear_filters (filters : List FilterF) : List FilterF :=
  filters

/-- Weak reference to a sink (`std::weak_ptr<Sink>`): `some i` holds the
control block of the managed object with identity `i`, `none` is the empty
weak reference. -/
abbrev WRef := Option Nat

/-- The empty `std::weak_ptr<Sink>` (also the state a weak_ptr is left in
after being moved from). -/
def WRef.empty : WRef := none

/-- `weak_ptr::lock` during broadcast: resolves to the managed object's
identity exactly when that object is still alive. -/
def lock (live : Nat → Bool) (w : WRef) : Option Nat :=
  match w with
  | none => none
  | some i => if live i then some i else none

/-- The `equals` helper of the source: ownership-based equality of two weak
references via `owner_before` (equal iff they share a control block, or are
both empty), independent of whether the referent is still alive. -/
def equals (t u : WRef) : Bool :=
  t == u

/-- A logger tree node (`class Logger`): local data `name` (the full path
string, as built by `ensure_child`), the `propagate` flag, the owned
`children` map (association list keyed by the child's local segment name),
and the `sinks` vector of weak references.  The non-owning `parent` back
pointer is represented by the node's position inside its parent's
`children` map and carries no further data. -/
inductive Logger where
  | node (name : Str) (propagate : Bool)
      (children : List (Str × Logger)) (sinks : List WRef)

/-- The `name` member. -/
def Logger.name : Logger → Str
  | .node n _ _ _ => n

/-- The `propagate` member. -/
def Logger.propagate : Logger → Bool
  | .node _ pr _ _ => pr

/-- The `children` member. -/
def Logger.children : Logger → List (Str × Logger)
  | .node _ _ cs _ => cs

/-- The `sinks` member. -/
def Logger.sinks : Logger → List WRef
  | .node _ _ _ sk => sk

/-- The loop body of `Logger::publish_log` over the `sinks` vector: for
each weak reference in order, `lock` it; on success call the sink's
`handle(log)` (recorded as a delivery event) and keep the entry; on
failure erase the entry (`iter = sinks.erase(iter)`) and continue with the
next.  Returns the vector left behind and the delivery events in order. -/
def publish_log (live : Nat → Bool) (log : Log) :
    List WRef → List WRef × List (Nat × Log)
  | [] => ([], [])
  | w :: rest =>
    match lock live w with
    | some i =>
      let r := publish_log live log rest
      (w :: r.1, (i, log) :: r.2)
    | none => publish_log live log rest

/-- `Logger::publish_log` on a node: runs the broadcast loop on the node's
own `sinks`, leaving every other member untouched. -/
def Logger.publish (live : Nat → Bool) (log : Log) :
    Logger → Logger × List (Nat × Log)
  | .node n pr cs sk =>
    let r := publish_log live log sk
    (.node n pr cs r.1, r.2)

mutual

/-- `Logger::attach_sink`: push the weak reference onto this node's
`sinks`, then recurse into every current child (depth-first). -/
def Logger.attach_sink (s : WRef) : Logger → Logger
  | .node n pr cs sk => .node n pr (attachChildren s cs) (sk ++ [s])

/-- The `for(auto& [child_name, child] : children)` loop of
`Logger::attach_sink`. -/
def attachChildren (s : WRef) : List (Str × Logger) → List (Str × Logger)
  | [] => []
  | (k, c) :: rest => (k, c.attach_sink s) :: attachChildren s rest

end

/-- The `sinks.erase(std::remove_if(...))` line of `Logger::deattach_sink`,
exactly as written — note the missing second argument `sinks.end()` of the
erase-remove idiom.  `std::remove_if` compacts the kept elements (those not
matching `p`) to the front by move assignment and returns an iterator to
the new logical end; the slots from there on hold either a removed element
that was never overwritten or a moved-from (hence empty) weak reference.
The single-iterator `erase` then removes only the one element at the
returned position.  When no element matches, `remove_if` returns `end()`
and `erase(end())` is undefined behavior, modelled as `none`. -/
def eraseRemoveIf (p : WRef → Bool) (v : List WRef) : Option (List WRef) :=
  let kept := v.filter (fun a => !p a)
  if kept.length = v.length then
    none
  else
    some (kept ++
      (((v.drop kept.length).map (fun a => if p a then a else WRef.empty)).tail))

mutual

/-- `Logger::deattach_sink`: erase-remove (with the source's missing
`end()` argument) every entry `equals` to the sink from this node's
`sinks`, then recurse into every current child.  `none` propagates the
undefined behavior of `erase(end())`. -/
def Logger.deattach_sink (s : WRef) : Logger → Option Logger
  | .node n pr cs sk =>
    match eraseRemoveIf (fun w => equals s w) sk with
    | none => none
    | some sk' =>
      match deattachChildren s cs with
      | none => none
      | some cs' => some (.node n pr cs' sk')

/-- The children loop of `Logger::deattach_sink`. -/
def deattachChildren (s : WRef) :
    List (Str × Logger) → Option (List (Str × Logger))
  | [] => some []
  | (k, c) :: rest =>
    match c.deattach_sink s with
    | none => none
    | some c' =>
      match deattachChildren s rest with
      | none => none
      | some rest' => some ((k, c') :: rest')

end

/-- `children.find(name)` of `std::map`: first (and, for maps built by
`ensure_child`, only) entry with the given key. -/
def Logger.findChild (l : Logger) (k : Str) : Option Logger :=
  List.lookup k l.children

/-- Writing through the `&iter->second` pointer obtained from
`children.find`: replace the value of the (first) entry with key `k`. -/
def setChild (k : Str) (c : Logger) :
    List (Str × Logger) → List (Str × Logger)
  | [] => []
  | (k', c') :: rest =>
    if k' = k then (k', c) :: rest else (k', c') :: setChild k c rest

/-- `Logger.setChild`: node with the child at key `k` replaced by `c`. -/
def Logger.setChild (l : Logger) (k : Str) (c : Logger) : Logger :=
  match l with
  | .node n pr cs sk => .node n pr (Peregrine.setChild k c cs) sk

/-- `Logger::ensure_child`: if no child with this segment name exists,
`try_emplace` one, constructed as `Logger(this, name + "/" + logger_name)`
— the new node's `name` is the parent's full name plus `"/"` plus the
segment, with fresh empty `children` and `sinks`.  The `propagate`
argument is defaulted; `logger.hpp` is not part of `src/`, and the spec
(§4.1) says nodes are created with `propagate = true` by default, so the
default is modelled from the spec as `true` (no claim reads the flag). -/
def Logger.ensureChild (l : Logger) (k : Str) : Logger :=
  match l.findChild k with
  | some _ => l
  | none =>
    match l with
    | .node n pr cs sk =>
      .node n pr (cs ++ [(k, .node (n ++ '/' :: k) true [] [])]) sk

/-- The head/tail split performed by one iteration of `Logger::get`:
`head = logger_name.substr(0, find("/"))` and, when a separator was found,
`tail = logger_name.erase(0, delim_index + 1)`.  `segsOf` iterates this
split to the segment list the recursion of `get` walks; when no separator
remains the whole string is the final segment (so `segsOf` is never
empty, and empty segments from leading, trailing or doubled separators are
kept, exactly as the code produces them). -/
def segsOf (p : Str) : List Str :=
  let head := p.takeWhile (fun c => c ≠ '/')
  if h : '/' ∈ p then
    head :: segsOf ((p.dropWhile (fun c => c ≠ '/')).drop 1)
  else
    [head]
termination_by p.length
decreasing_by
  simp only [Str] at *
  have h1 : p.dropWhile (fun c => c ≠ '/') ≠ [] := by
    intro hnil
    have := List.dropWhile_eq_nil_iff.mp hnil _ h
    simp at this
  have h2 : (p.dropWhile (fun c => c ≠ '/')).length ≤ p.length :=
    (List.dropWhile_sublist (l := p) (p := (fun c => c ≠ '/'))).length_le
  cases hd : p.dropWhile (fun c => c ≠ '/') with
  | nil => exact absurd hd h1
  | cons a t =>
    rw [hd] at h2
    simp only [List.drop_one, hd, List.tail_cons]
    simp only [List.length_cons] at h2
    omega

/-- The recursion of `Logger::get` over the segment list: ensure a child
named `head` exists, then — if `head` was the last segment — return the
result of `children.find(head)` (`none` models the `nullptr` branch taken
when the find fails, which the theorems show is unreachable), else recurse
into that child with the remaining segments.  The returned handle is the
key path from the starting node to the node the returned pointer denotes;
the first component is the tree after the call's mutations. -/
def getSegs : Logger → List Str → Logger × Option (List Str)
  | l, [] => (l, none)
  | l, [k] =>
    match (l.ensureChild k).findChild k with
    | some _ => (l.ensureChild k, some [k])
    | none => (l.ensureChild k, none)
  | l, k :: k2 :: t =>
    match (l.ensureChild k).findChild k with
    | none => (l.ensureChild k, none)
    | some c =>
      ((l.ensureChild k).setChild k (getSegs c (k2 :: t)).1,
       (getSegs c (k2 :: t)).2.map (k :: ·))

/-- `Logger::get(logger_name)`: split the path into segments and walk
them, lazily creating missing children. -/
def Logger.get (l : Logger) (p : Str) : Logger × Option (List Str) :=
  getSegs l (segsOf p)

/-- Dereference a key path: the node a handle returned by `get` denotes
(`some l` for the empty path, i.e. the starting node itself). -/
def nodeAt : Logger → List Str → Option Logger
  | l, [] => some l
  | l, k :: ks =>
    match l.findChild k with
    | none => none
    | some c => nodeAt c ks

/-- In-place mutation of the node a pointer denotes, seen from the root of
the modelled subtree: rewrite the node at key path `q` with `f`, leaving
the tree unchanged when the path does not exist. -/
def mapAt : Logger → List Str → (Logger → Logger) → Logger
  | l, [], f => f l
  | l, k :: ks, f =>
    match l.findChild k with
    | none => l
    | some c => l.setChild k (mapAt c ks f)

/-- Calling `publish_log` through a `Logger*` that points at the node with
key path `q` inside the tree `l`: the tree afterwards, plus the delivery
events.  A dangling path delivers nothing and changes nothing (no such
pointer exists). -/
def publishAt (live : Nat → Bool) (log : Log) (l : Logger) (q : List Str) :
    Logger × List (Nat × Log) :=
  (mapAt l q (fun d => (d.publish live log).1),
   (nodeAt l q).elim [] (fun d => (d.publish live log).2))

/-- `PrintSink::handle`: `if(!filter(log)) return;` — apply the sink's own
filter chain first and return with no output when it rejects — then write
the formatted record to `std::cout`.  The backend write is modelled as the
list of records that reach the backend (formatting, colors and the
`with_color` flag are out of the core's scope, spec §1/§6, and play no
role in the claims). -/
def PrintSink.handle (filters : List FilterF) (log : Log) : List Log :=
  if !(Filterer.filter filters log) then [] else [log]

/-- `FileSink::handle`: writes the formatted record to `file_stream`
unconditionally — the body contains no call to `filter`, so the sink's
filter chain (inherited from `Filterer` via `Sink`) is ignored. -/
def FileSink.handle (_filters : List FilterF) (log : Log) : List Log :=
  [log]

/-- `ZMQPubSink::handle`: serializes the record and publishes it on the
socket unconditionally — the body contains no call to `filter`. -/
def ZMQPubSink.handle (_filters : List FilterF) (log : Log) : List Log :=
  [log]

/-- A concrete record used by witnesses. -/
def sampleLog : Log :=
  { source := [], time := 0, level := .INFO, message := [] }

/-- A concrete child node used by witnesses: one sink subscribed twice
(identity 1) and one dead entry (identity 2, not alive under
`sampleLive`). -/
def sampleChild : Logger :=
  .node ['/', 'a'] true [] [some 1, some 2]

/-- A concrete tree used by witnesses: root with single child `a`. -/
def sampleTree : Logger :=
  .node [] true [(['a'], sampleChild)] []

/-- Liveness for witnesses: only the sink with identity 1 is alive. -/
def sampleLive : Nat → Bool :=
  fun i => i == 1

/-! Helper lemmas, shared between the claim theorems below. -/

/-- The vector `publish_log` leaves behind is the original one with the
entries whose `lock` fails removed. -/
theorem publish_log_fst (live : Nat → Bool) (log : Log) (sk : List WRef) :
    (publish_log live log sk).1 = sk.filter (fun w => (lock live w).isSome) := by
  induction sk with
  | nil => rfl
  | cons w rest ih =>
    cases hw : lock live w with
    | none => simp [publish_log, hw, ih]
    | some i => simp [publish_log, hw, ih]

/-- The delivery events of `publish_log` are exactly the locks that
succeed, in collection order, each paired with the broadcast record. -/
theorem publish_log_snd (live : Nat → Bool) (log : Log) (sk : List WRef) :
    (publish_log live log sk).2
      = sk.filterMap (fun w => (lock live w).map (fun i => (i, log))) := by
  induction sk with
  | nil => rfl
  | cons w rest ih =>
    cases hw : lock live w with
    | none => simp [publish_log, hw, ih]
    | some i => simp [publish_log, hw, ih]

/-- Per-identity delivery count of `publish_log`: a live identity is
delivered to once per occurrence of its weak reference in the collection,
a dead one never. -/
theorem publish_log_count (live : Nat → Bool) (log : Log) (sk : List WRef)
    (i : Nat) :
    (publish_log live log sk).2.count (i, log)
      = if live i then sk.count (some i) else 0 := by
  induction sk with
  | nil => simp [publish_log]
  | cons w rest ih =>
    cases w with
    | none => simpa [publish_log, lock, List.count_cons] using ih
    | some j =>
      by_cases hj : live j
      · by_cases hij : j = i
        · subst hij
          simp [publish_log, lock, hj, List.count_cons, ih]
        · simp only [publish_log, lock, hj, if_pos, List.count_cons, ih]
          simp [hij]
      · by_cases hij : j = i
        · subst hij
          simp [publish_log, lock, hj, List.count_cons, ih]
        · simpa [publish_log, lock, hj, List.count_cons, hij] using ih

/-- Looking up a key appended to a map it was missing from finds the new
entry. -/
theorem lookup_append_self (k : Str) (c : Logger) (cs : List (Str × Logger))
    (h : List.lookup k cs = none) :
    List.lookup k (cs ++ [(k, c)]) = some c := by
  induction cs with
  | nil => simp [List.lookup]
  | cons p rest ih =>
    obtain ⟨k', c'⟩ := p
    by_cases hk : k = k'
    · subst hk
      simp [List.lookup] at h
    · simp only [List.lookup, List.cons_append] at h ⊢
      rw [show (k == k') = false by simpa using hk] at h ⊢
      exact ih h

/-- Replacing the entry found at a key makes lookup return the new value. -/
theorem lookup_setChild_self (k : Str) (x c : Logger)
    (cs : List (Str × Logger)) (h : List.lookup k cs = some c) :
    List.lookup k (setChild k x cs) = some x := by
  induction cs with
  | nil => simp [List.lookup] at h
  | cons p rest ih =>
    obtain ⟨k', c'⟩ := p
    by_cases hk : k' = k
    · subst hk
      simp [setChild, List.lookup]
    · simp only [setChild, if_neg hk, List.lookup] at h ⊢
      rw [show (k == k') = false by simpa using fun e => hk e.symm] at h ⊢
      exact ih h

/-- Replacing the entry at one key leaves lookups of other keys alone. -/
theorem lookup_setChild_ne (k k' : Str) (x : Logger)
    (cs : List (Str × Logger)) (h : k' ≠ k) :
    List.lookup k' (setChild k x cs) = List.lookup k' cs := by
  induction cs with
  | nil => simp [setChild]
  | cons p rest ih =>
    obtain ⟨k'', c''⟩ := p
    by_cases hk : k'' = k
    · subst hk
      simp only [setChild, if_pos rfl, List.lookup]
      rw [show (k' == k'') = false by simpa using h]
    · simp only [setChild, if_neg hk, List.lookup]
      cases k' == k'' <;> simp [ih]

/-- Writing back the value already stored at a key is the identity. -/
theorem setChild_lookup_same (k : Str) (c : Logger)
    (cs : List (Str × Logger)) (h : List.lookup k cs = some c) :
    setChild k c cs = cs := by
  induction cs with
  | nil => rfl
  | cons p rest ih =>
    obtain ⟨k', c'⟩ := p
    by_cases hk : k' = k
    · subst hk
      simp only [List.lookup, beq_self_eq_true, Option.some.injEq] at h
      simp [setChild, h]
    · simp only [List.lookup] at h
      rw [show (k == k') = false by simpa using fun e => hk e.symm] at h
      simp [setChild, hk, ih h]

/-- Writing at a missing key is the identity. -/
theorem setChild_lookup_none (k : Str) (x : Logger)
    (cs : List (Str × Logger)) (h : List.lookup k cs = none) :
    setChild k x cs = cs := by
  induction cs with
  | nil => rfl
  | cons p rest ih =>
    obtain ⟨k', c'⟩ := p
    by_cases hk : k' = k
    · subst hk
      simp [List.lookup] at h
    · simp only [List.lookup] at h
      rw [show (k == k') = false by simpa using fun e => hk e.symm] at h
      simp [setChild, hk, ih h]

/-- `Logger.setChild` touches only the `children` member. -/
theorem setChild_members (l : Logger) (k : Str) (c : Logger) :
    (l.setChild k c).name = l.name
    ∧ (l.setChild k c).propagate = l.propagate
    ∧ (l.setChild k c).sinks = l.sinks
    ∧ (l.setChild k c).children = setChild k c l.children := by
  cases l
  exact ⟨rfl, rfl, rfl, rfl⟩

/-- `ensure_child` on a present key is the identity. -/
theorem ensureChild_found (l : Logger) (k : Str) (c : Logger)
    (h : l.findChild k = some c) : l.ensureChild k = l := by
  cases l
  simp [Logger.ensureChild, h]

/-- `ensure_child` on a missing key appends a fresh node (full name
`name + "/" + k`, empty children, empty sinks), found by a subsequent
lookup. -/
theorem ensureChild_missing (l : Logger) (k : Str)
    (h : l.findChild k = none) :
    (l.ensureChild k).findChild k
      = some (.node (l.name ++ '/' :: k) true [] []) := by
  cases l with
  | node n pr cs sk =>
    simp only [Logger.ensureChild, Logger.findChild] at h ⊢
    simp only [h]
    exact lookup_append_self k _ cs h

/-- After `ensure_child`, the key is always present. -/
theorem ensureChild_present (l : Logger) (k : Str) :
    ∃ c, (l.ensureChild k).findChild k = some c := by
  cases hf : l.findChild k with
  | some c => exact ⟨c, by rw [ensureChild_found l k c hf]; exact hf⟩
  | none => exact ⟨_, ensureChild_missing l k hf⟩

/-- Logger-level version of `lookup_setChild_self`. -/
theorem findChild_setChild_self (l : Logger) (k : Str) (x c : Logger)
    (h : l.findChild k = some c) :
    (l.setChild k x).findChild k = some x := by
  cases l with
  | node n pr cs sk =>
    exact lookup_setChild_self k x c cs h

/-- Logger-level version of `setChild_lookup_same`. -/
theorem setChild_findChild_same (l : Logger) (k : Str) (c : Logger)
    (h : l.findChild k = some c) : l.setChild k c = l := by
  cases l with
  | node n pr cs sk =>
    simp [Logger.setChild, setChild_lookup_same k c cs h]

/-- The recursion of `get` is idempotent on any fixed segment list: a
second walk finds every child the first walk ensured, creates nothing,
changes nothing, and returns the same handle. -/
theorem getSegs_idem (segs : List Str) (l : Logger) :
    getSegs (getSegs l segs).1 segs = getSegs l segs := by
  induction segs generalizing l with
  | nil => rfl
  | cons k tail ih =>
    cases tail with
    | nil =>
      obtain ⟨c, hc⟩ := ensureChild_present l k
      have he : (l.ensureChild k).ensureChild k = l.ensureChild k :=
        ensureChild_found _ _ _ hc
      simp only [getSegs, hc, he]
    | cons k2 t =>
      obtain ⟨c, hc⟩ := ensureChild_present l k
      have hT : ((l.ensureChild k).setChild k (getSegs c (k2 :: t)).1).findChild k
          = some (getSegs c (k2 :: t)).1 :=
        findChild_setChild_self _ _ _ _ hc
      have heT : ((l.ensureChild k).setChild k (getSegs c (k2 :: t)).1).ensureChild k
          = (l.ensureChild k).setChild k (getSegs c (k2 :: t)).1 :=
        ensureChild_found _ _ _ hT
      have hrec : getSegs (getSegs c (k2 :: t)).1 (k2 :: t) = getSegs c (k2 :: t) :=
        ih c
      have hset : ((l.ensureChild k).setChild k (getSegs c (k2 :: t)).1).setChild k
            (getSegs c (k2 :: t)).1
          = (l.ensureChild k).setChild k (getSegs c (k2 :: t)).1 :=
        setChild_findChild_same _ _ _ hT
      simp only [getSegs, hc, heT, hT, hrec, hset]

/-- The recursion of `get` never takes the `nullptr` branch and the
returned handle is the walked segment list itself, denoting a node that
exists in the returned tree. -/
theorem getSegs_total (segs : List Str) (l : Logger) (hne : segs ≠ []) :
    (getSegs l segs).2 = some segs
    ∧ ∃ d, nodeAt (getSegs l segs).1 segs = some d := by
  induction segs generalizing l with
  | nil => exact absurd rfl hne
  | cons k tail ih =>
    cases tail with
    | nil =>
      obtain ⟨c, hc⟩ := ensureChild_present l k
      refine ⟨by simp only [getSegs, hc], ⟨c, ?_⟩⟩
      simp only [getSegs, hc, nodeAt, hc]
    | cons k2 t =>
      obtain ⟨c, hc⟩ := ensureChild_present l k
      obtain ⟨hh, d, hd⟩ := ih c (by simp)
      have hT : ((l.ensureChild k).setChild k (getSegs c (k2 :: t)).1).findChild k
          = some (getSegs c (k2 :: t)).1 :=
        findChild_setChild_self _ _ _ _ hc
      refine ⟨?_, ⟨d, ?_⟩⟩
      · simp [getSegs, hc, hh]
      · simp only [getSegs, hc, nodeAt, hT]
        exact hd

/-- `segsOf` always produces at least one segment (the code's final
`substr` of the whole remaining string). -/
theorem segsOf_ne_nil (p : Str) : segsOf p ≠ [] := by
  rw [segsOf]
  split <;> simp

/-- C2: `get` is idempotent: calling `get` a second time with the same
path, starting from the tree the first call produced, returns the same
handle (the same key path, denoting the same underlying node) and leaves
the tree exactly as it was — the second call creates no new nodes. -/
theorem get_idempotent (l : Logger) (p : Str) :
    Logger.get (Logger.get l p).1 p = Logger.get l p :=
  getSegs_idem (segsOf p) l

/-- C8: `get` never fails, for every path string including malformed ones
(empty string, empty segments, trailing separators): the returned handle
is non-null (`some`, namely the full segment list of the path) and
denotes a node that exists in the returned tree, every missing node
having been created along the way. -/
theorem get_never_fails (l : Logger) (p : Str) :
    (Logger.get l p).2 = some (segsOf p)
    ∧ ∃ d, nodeAt (Logger.get l p).1 (segsOf p) = some d :=
  getSegs_total (segsOf p) l (segsOf_ne_nil p)

/-- The children loop of `attach_sink` rewrites each entry in place:
lookup commutes with it. -/
theorem lookup_attachChildren (s : WRef) (cs : List (Str × Logger)) (k : Str) :
    List.lookup k (attachChildren s cs)
      = (List.lookup k cs).map (Logger.attach_sink s) := by
  induction cs with
  | nil => rfl
  | cons p rest ih =>
    obtain ⟨k', c'⟩ := p
    simp only [attachChildren, List.lookup]
    cases k == k' <;> simp [ih]

/-- `attach_sink` at the root reaches every key path: the node a path
denotes after the call is the attached version of the node it denoted
before (and a dangling path stays dangling). -/
theorem nodeAt_attach (q : List Str) (s : WRef) (l : Logger) :
    nodeAt (Logger.attach_sink s l) q
      = (nodeAt l q).map (Logger.attach_sink s) := by
  induction q generalizing l with
  | nil => rfl
  | cons k ks ih =>
    cases l with
    | node n pr cs sk =>
      simp only [nodeAt, Logger.attach_sink, Logger.findChild, Logger.children]
      rw [lookup_attachChildren]
      cases h : List.lookup k cs <;> simp [ih]

/-- `attach_sink` pushes exactly one entry onto the node's own `sinks`. -/
theorem attach_sinks (s : WRef) (l : Logger) :
    (Logger.attach_sink s l).sinks = l.sinks ++ [s] := by
  cases l
  rfl

/-- C3: subscribing a sink to the node `l` appends exactly one weak
reference to the `sinks` collection of `l` and of every descendant
existing at the time of the call — the node any key path `q` denotes
after `attach_sink` is the attached version of the node it denoted
before, with `sinks` grown by exactly `[s]` at the end, irrespective of
any node's `propagate` flag — while a child created under the node
afterwards (by `ensure_child`, i.e. by path lookup) starts with an empty
`sinks` collection and so does not receive the sink. -/
theorem subscribe_appends_here_and_to_current_descendants_only
    (l : Logger) (s : WRef) (q : List Str) (d : Logger)
    (h : nodeAt l q = some d) :
    nodeAt (Logger.attach_sink s l) q = some (Logger.attach_sink s d)
    ∧ (Logger.attach_sink s d).sinks = d.sinks ++ [s]
    ∧ ∀ k : Str, d.findChild k = none →
        ∃ ch, ((Logger.attach_sink s d).ensureChild k).findChild k = some ch
          ∧ ch.sinks = ([] : List WRef) := by
  refine ⟨by rw [nodeAt_attach, h]; rfl, attach_sinks s d, ?_⟩
  intro k hk
  have h1 : (Logger.attach_sink s d).findChild k = none := by
    cases d with
    | node n pr cs sk =>
      simp only [Logger.attach_sink, Logger.findChild, Logger.children] at hk ⊢
      rw [lookup_attachChildren, hk]
      rfl
  exact ⟨_, ensureChild_missing _ _ h1, rfl⟩

/-- Witness for C3: in the sample tree, subscribing sink 5 to the root
appends it to the child `a` existing at subscribe time, and a child `b`
created afterwards starts with no sinks. -/
theorem subscribe_appends_here_and_to_current_descendants_only_witness :
    nodeAt sampleTree [['a']] = some sampleChild
    ∧ nodeAt (Logger.attach_sink (some 5) sampleTree) [['a']]
        = some (Logger.attach_sink (some 5) sampleChild)
    ∧ (Logger.attach_sink (some 5) sampleChild).sinks
        = sampleChild.sinks ++ [some 5]
    ∧ ∃ ch, ((Logger.attach_sink (some 5) sampleChild).ensureChild ['b']).findChild ['b']
          = some ch
        ∧ ch.sinks = ([] : List WRef) :=
  ⟨rfl,
   (subscribe_appends_here_and_to_current_descendants_only
      sampleTree (some 5) [['a']] sampleChild rfl).1,
   (subscribe_appends_here_and_to_current_descendants_only
      sampleTree (some 5) [['a']] sampleChild rfl).2.1,
   (subscribe_appends_here_and_to_current_descendants_only
      sampleTree (some 5) [['a']] sampleChild rfl).2.2 ['b'] rfl⟩

/-- Logger-level version of `lookup_setChild_ne`. -/
theorem findChild_setChild_ne (l : Logger) (k k' : Str) (x : Logger)
    (h : k' ≠ k) : (l.setChild k x).findChild k' = l.findChild k' := by
  cases l with
  | node n pr cs sk =>
    exact lookup_setChild_ne k k' x cs h

/-- `Logger::publish_log` on a node: the node keeps its `name`,
`propagate` and `children` and only has the dead entries of its own
`sinks` pruned, while the delivery events are the successful locks of its
own `sinks` in order. -/
theorem publish_members (live : Nat → Bool) (log : Log) (l : Logger) :
    (l.publish live log).1
      = Logger.node l.name l.propagate l.children
          (l.sinks.filter (fun w => (lock live w).isSome))
    ∧ (l.publish live log).2
      = l.sinks.filterMap (fun w => (lock live w).map (fun i => (i, log))) := by
  cases l with
  | node n pr cs sk =>
    exact ⟨by simp only [Logger.publish, publish_log_fst]; rfl,
           by simp only [Logger.publish, publish_log_snd]; rfl⟩

/-- `mapAt` rewrites exactly the node its path denotes. -/
theorem nodeAt_mapAt_self (q : List Str) (f : Logger → Logger)
    (l d : Logger) (h : nodeAt l q = some d) :
    nodeAt (mapAt l q f) q = some (f d) := by
  induction q generalizing l with
  | nil =>
    simp only [nodeAt, Option.some.injEq] at h
    simp [mapAt, nodeAt, h]
  | cons k ks ih =>
    simp only [nodeAt] at h
    cases hc : l.findChild k with
    | none => rw [hc] at h; exact absurd h (by simp)
    | some c =>
      rw [hc] at h
      simp only [mapAt, hc, nodeAt,
        findChild_setChild_self l k (mapAt c ks f) c hc]
      exact ih c h

/-- `mapAt` leaves every path that is not an initial segment of its
target path alone, provided the rewriting function preserves the
`children` map (this covers both unrelated paths and strict descendants
of the target). -/
theorem nodeAt_mapAt_not_above (q : List Str) (f : Logger → Logger)
    (hf : ∀ x, (f x).children = x.children) :
    ∀ (q' : List Str) (l : Logger), (¬ ∃ r : List Str, q' ++ r = q) →
      nodeAt (mapAt l q f) q' = nodeAt l q' := by
  induction q with
  | nil =>
    intro q' l hq'
    cases q' with
    | nil => exact absurd ⟨[], rfl⟩ hq'
    | cons k t =>
      cases l with
      | node n pr cs sk =>
        simp only [mapAt, nodeAt, Logger.findChild]
        rw [show (f (Logger.node n pr cs sk)).children = cs from hf _]
        rfl
  | cons k ks ih =>
    intro q' l hq'
    cases hc : l.findChild k with
    | none => simp [mapAt, hc]
    | some c =>
      cases q' with
      | nil => exact absurd ⟨k :: ks, rfl⟩ hq'
      | cons k' t' =>
        by_cases hk : k' = k
        · subst hk
          simp only [mapAt, hc, nodeAt,
            findChild_setChild_self l k' (mapAt c ks f) c hc, hc]
          exact ih t' c (fun ⟨r, hr⟩ => hq' ⟨r, by rw [← hr]; rfl⟩)
        · simp only [mapAt, hc, nodeAt, findChild_setChild_ne l k k' _ hk]

/-- Rewriting at a composite path is rewriting the deeper suffix inside
the node the shallower part denotes. -/
theorem mapAt_append (q r : List Str) (f : Logger → Logger) (l : Logger) :
    mapAt l (q ++ r) f = mapAt l q (fun a => mapAt a r f) := by
  induction q generalizing l with
  | nil => rfl
  | cons k ks ih =>
    cases hc : l.findChild k with
    | none => simp [mapAt, hc]
    | some c => simp [mapAt, hc, ih]

/-- Dereferencing a composite path goes through the node the shallower
part denotes. -/
theorem nodeAt_append (q r : List Str) (l : Logger) :
    nodeAt l (q ++ r) = (nodeAt l q).bind (fun a => nodeAt a r) := by
  induction q generalizing l with
  | nil => rfl
  | cons k ks ih =>
    cases hc : l.findChild k with
    | none => simp [nodeAt, hc]
    | some c => simp [nodeAt, hc, ih]

/-- Rewriting strictly below a node changes none of that node's own
members except the identity of the rewritten child subtree: `name`,
`propagate`, `sinks` and the key set of `children` are untouched. -/
theorem mapAt_cons_members (k : Str) (ks : List Str) (f : Logger → Logger)
    (l : Logger) :
    (mapAt l (k :: ks) f).name = l.name
    ∧ (mapAt l (k :: ks) f).propagate = l.propagate
    ∧ (mapAt l (k :: ks) f).sinks = l.sinks
    ∧ ∀ k' : Str, ((mapAt l (k :: ks) f).findChild k').isSome
        = (l.findChild k').isSome := by
  cases hc : l.findChild k with
  | none => simp [mapAt, hc]
  | some c =>
    obtain ⟨h1, h2, h3, _⟩ := setChild_members l k (mapAt c ks f)
    refine ⟨by simp [mapAt, hc, h1], by simp [mapAt, hc, h2],
            by simp [mapAt, hc, h3], ?_⟩
    intro k'
    by_cases hk : k' = k
    · subst hk
      simp [mapAt, hc, findChild_setChild_self l k' (mapAt c ks f) c hc]
    · simp [mapAt, hc, findChild_setChild_ne l k k' _ hk]

/-- C7: broadcast from the node at path `q` targets only that node's own
`sinks`: the delivery events are exactly the successful locks of that
node's own collection (so no ancestor's or descendant's sinks are
consulted, and neither the `propagate` flag nor the parent reference
plays any role — the events are a function of that node's `sinks`
alone); the node itself keeps its name, propagate flag and children and
only has its dead sink entries removed; every node that is not a strict
ancestor of the target is completely unchanged; and each strict ancestor
keeps its own sinks, name, propagate flag and children keys. -/
theorem publish_targets_only_own_sinks
    (live : Nat → Bool) (log : Log) (l : Logger) (q : List Str) (d : Logger)
    (h : nodeAt l q = some d) :
    (publishAt live log l q).2
        = d.sinks.filterMap (fun w => (lock live w).map (fun i => (i, log)))
    ∧ nodeAt (publishAt live log l q).1 q
        = some (Logger.node d.name d.propagate d.children
            (d.sinks.filter (fun w => (lock live w).isSome)))
    ∧ (∀ q' : List Str, (¬ ∃ r : List Str, q' ++ r = q) →
        nodeAt (publishAt live log l q).1 q' = nodeAt l q')
    ∧ ∀ q' r : List Str, q' ++ r = q → r ≠ [] →
        ∃ a a', nodeAt l q' = some a
          ∧ nodeAt (publishAt live log l q).1 q' = some a'
          ∧ a'.sinks = a.sinks ∧ a'.name = a.name
          ∧ a'.propagate = a.propagate
          ∧ ∀ k : Str, (a'.findChild k).isSome = (a.findChild k).isSome := by
  have hfc : ∀ x : Logger,
      ((fun a : Logger => (Logger.publish live log a).1) x).children
        = x.children := by
    intro x
    simp only
    rw [(publish_members live log x).1]
    rfl
  refine ⟨?_, ?_, ?_, ?_⟩
  · simp only [publishAt, h, Option.elim]
    exact (publish_members live log d).2
  · simp only [publishAt]
    rw [nodeAt_mapAt_self q _ l d h, (publish_members live log d).1]
  · intro q' hq'
    simp only [publishAt]
    exact nodeAt_mapAt_not_above q _ hfc q' l hq'
  · intro q' r hqr hr
    subst hqr
    rw [nodeAt_append] at h
    cases ha : nodeAt l q' with
    | none => rw [ha] at h; exact absurd h (by simp)
    | some a =>
      refine ⟨a, mapAt a r (fun x : Logger => (Logger.publish live log x).1),
        rfl, ?_, ?_⟩
      · simp only [publishAt]
        rw [mapAt_append]
        exact nodeAt_mapAt_self q' _ l a ha
      · cases r with
        | nil => exact absurd rfl hr
        | cons k ks =>
          obtain ⟨h1, h2, h3, h4⟩ :=
            mapAt_cons_members k ks
              (fun x : Logger => (Logger.publish live log x).1) a
          exact ⟨h3, h1, h2, h4⟩

/-- Witness for C7 in the sample tree: publishing at child `a` (sinks
`[some 1, some 2]`, with only identity 1 alive) delivers once to sink 1,
prunes the dead entry, and leaves the root's own members untouched. -/
theorem publish_targets_only_own_sinks_witness :
    nodeAt sampleTree [['a']] = some sampleChild
    ∧ (publishAt sampleLive sampleLog sampleTree [['a']]).2
        = [(1, sampleLog)]
    ∧ nodeAt (publishAt sampleLive sampleLog sampleTree [['a']]).1 [['a']]
        = some (Logger.node ['/', 'a'] true [] [some 1])
    ∧ nodeAt (publishAt sampleLive sampleLog sampleTree [['a']]).1 [['b']]
        = nodeAt sampleTree [['b']] :=
  ⟨rfl,
   ((publish_targets_only_own_sinks sampleLive sampleLog sampleTree
      [['a']] sampleChild rfl).1).trans rfl,
   ((publish_targets_only_own_sinks sampleLive sampleLog sampleTree
      [['a']] sampleChild rfl).2.1).trans rfl,
   (publish_targets_only_own_sinks sampleLive sampleLog sampleTree
      [['a']] sampleChild rfl).2.2.1 [['b']]
      (by rintro ⟨r, hr⟩; simp at hr)⟩

/-- C1: one `publish_log` call over a node's `sinks` collection delivers
the record, via `handle`, exactly once per entry whose weak reference
resolves to a live object, in the collection's insertion order (the
delivery events are the successful locks in collection order), and leaves
behind exactly the entries whose weak reference still resolves —
i.e. every stale reference is removed. -/
theorem publish_delivers_live_once_and_prunes_dead
    (live : Nat → Bool) (log : Log) (sk : List WRef) :
    (publish_log live log sk).1 = sk.filter (fun w => (lock live w).isSome)
    ∧ (publish_log live log sk).2
        = sk.filterMap (fun w => (lock live w).map (fun i => (i, log)))
    ∧ ∀ i : Nat, (publish_log live log sk).2.count (i, log)
        = if live i then sk.count (some i) else 0 :=
  ⟨publish_log_fst live log sk, publish_log_snd live log sk,
   fun i => publish_log_count live log sk i⟩

/-- C6: `Filterer::filter` returns `true` iff every filter in the chain
accepts the record; the empty chain accepts everything; and evaluation
short-circuits at the first rejecting filter — once some member of the
chain rejects, the result is `false` whatever filters follow it, so the
filters after the first rejection are never consulted. -/
theorem filter_iff_all_accept_and_short_circuits
    (fs : List FilterF) (log : Log) :
    (Filterer.filter fs log = true ↔ ∀ f ∈ fs, f log = true)
    ∧ Filterer.filter ([] : List FilterF) log = true
    ∧ ∀ (pre : List FilterF) (f : FilterF) (rest : List FilterF),
        f log = false → Filterer.filter (pre ++ f :: rest) log = false := by
  refine ⟨?_, rfl, ?_⟩
  · have hall : Filterer.filter fs log = fs.all (fun f => f log) := by
      induction fs with
      | nil => rfl
      | cons g rest ih => by_cases hg : g log <;> simp [Filterer.filter, hg, ih]
    simp [hall, List.all_eq_true]
  · intro pre f rest hf
    induction pre with
    | nil => simp [Filterer.filter, hf]
    | cons g pre' ih =>
      by_cases hg : g log
      · simpa [Filterer.filter, hg] using ih
      · simp [Filterer.filter, hg]

/-- Witness for C6 at a concrete chain and record: the chain
`[reject-all, accept-all]` rejects the sample record, by the
short-circuit conjunct applied with an empty prefix. -/
theorem filter_iff_all_accept_and_short_circuits_witness :
    Filterer.filter [fun _ => false, fun _ => true] sampleLog = false :=
  (filter_iff_all_accept_and_short_circuits [] sampleLog).2.2
    [] (fun _ => false) [fun _ => true] rfl

/-- C10: `Filterer::clear_filters` has an empty body — it removes nothing
from the chain, so the chain, and hence the result of `filter` on every
record, is exactly what it was before the call. -/
theorem clear_filters_changes_nothing (fs : List FilterF) (log : Log) :
    Filterer.clear_filters fs = fs
    ∧ Filterer.filter (Filterer.clear_filters fs) log
        = Filterer.filter fs log :=
  ⟨rfl, rfl⟩

/-- C4 (code evaluated at the failing input): a node whose `sinks`
collection holds the same live sink twice, with no children; one
`deattach_sink` call removes only one of the two entries — the
single-iterator `sinks.erase(std::remove_if(...))` of the source erases
just the element at the returned position instead of the whole removed
range — so the sink stays subscribed, contradicting the claim that all
matching entries are removed. -/
theorem deattach_twice_subscribed_leaves_one_entry :
    Logger.deattach_sink (some 1) (.node [] true [] [some 1, some 1])
      = some (.node [] true [] [some 1]) :=
  rfl

/-- C5 (code evaluated at the failing input): unsubscribing a sink with no
identity-matching entry in the node's `sinks` collection is not a no-op —
`std::remove_if` finds nothing and returns `sinks.end()`, and the source's
single-iterator `sinks.erase(end())` is undefined behavior (modelled as
`none`), not an unchanged collection. -/
theorem deattach_absent_is_undefined_behavior :
    Logger.deattach_sink (some 1) (.node [] true [] []) = none :=
  rfl

/-- C9 is false as stated: `FileSink::handle` contains no call to
`filter`, so with a chain that rejects every record the record is still
written to the backend, while the same chain makes `Filterer::filter`
return `false`.  (`ZMQPubSink::handle` likewise never calls `filter`;
only `PrintSink::handle` checks its chain.) -/
theorem file_sink_writes_despite_rejecting_chain :
    Filterer.filter [fun _ => false] sampleLog = false
    ∧ FileSink.handle [fun _ => false] sampleLog = [sampleLog] :=
  ⟨rfl, rfl⟩

/-- C9 amended: of the concrete sink implementations in the repository,
only `PrintSink` applies its own filter chain at the top of `handle`,
performing no backend output when the chain rejects the record and
writing it exactly once when the chain accepts; `FileSink` and
`ZMQPubSink` never consult their filter chains and perform their backend
output unconditionally. -/
theorem only_print_sink_applies_its_filter_chain
    (fs : List FilterF) (log : Log) :
    (Filterer.filter fs log = false → PrintSink.handle fs log = [])
    ∧ (Filterer.filter fs log = true → PrintSink.handle fs log = [log])
    ∧ FileSink.handle fs log = [log]
    ∧ ZMQPubSink.handle fs log = [log] := by
  refine ⟨?_, ?_, rfl, rfl⟩
  · intro hrej
    simp [PrintSink.handle, hrej]
  · intro hacc
    simp [PrintSink.handle, hacc]

/-- Witness for the amended C9 at a concrete chain and record: a
rejecting chain suppresses the `PrintSink` output and leaves the
`FileSink` output in place. -/
theorem only_print_sink_applies_its_filter_chain_witness :
    PrintSink.handle [fun _ => false] sampleLog = []
    ∧ FileSink.handle [fun _ => false] sampleLog = [sampleLog] :=
  ⟨(only_print_sink_applies_its_filter_chain [fun _ => false] sampleLog).1 rfl,
   (only_print_sink_applies_its_filter_chain [fun _ => false] sampleLog).2.2.1⟩

end Peregrine
